import Mathlib

/-!
Verification of the inverted-index core (src/inverted_index.py).

The Python source is shallowly embedded below:

- Python `dict` becomes an association list `List (key × value)` whose keys
  are unique along every construction path used here; `dict.get` is first
  match, `dict[k] = v` replaces the first binding in place or appends.
- Python `set` of ids becomes a duplicate-free `List Int`; `set.add` appends
  the element when it is absent.  Iteration order of a Python set is
  unspecified, so only membership in these lists is semantically meaningful.
- `re.split(r"\W+", content)` (line 128) becomes `reSplitW`: the pieces of
  the character list lying between maximal runs of non-word characters,
  including the empty pieces the Python function produces next to a leading
  or trailing separator.  The word class is modelled on its ASCII fragment
  (alphanumerics and underscore); the full Unicode tables of the `re` module
  are abstracted away and no claim depends on non-ASCII characters.
- `json.load` / `json.dump` are the standard library; they are modelled at
  the level of parsed JSON values (`JValue`), with the text layer abstracted
  as the value-faithful round trip the library documents for objects of
  string keys and integer arrays.
-/

/-- Word characters of the pattern in `re.split(r"\W+", content)`:
alphanumeric or underscore (ASCII fragment of the Unicode word class). -/
def isWordChar (c : Char) : Bool :=
  c.isAlphanum || c == '_'

/-- One step of the right fold computing `re.split(r"\W+", _)`.  The state is
a list of pieces (leftmost current piece first) together with a flag telling
whether the character just to the right was a separator, so that a maximal
separator run contributes exactly one piece boundary. -/
def splitStep (c : Char) (st : Bool × List (List Char)) : Bool × List (List Char) :=
  match st with
  | (sepRight, pieces) =>
    match pieces with
    | [] => (sepRight, [])
    | t :: ts =>
      if isWordChar c then (false, (c :: t) :: ts)
      else if sepRight then (true, t :: ts)
      else (true, [] :: t :: ts)

/-- The result of `re.split(r"\W+", s)` on the character list of `s`: the
pieces between maximal runs of non-word characters.  A piece is empty exactly
where the Python call yields an empty string: for the empty input, and next
to a separator run touching the start or the end of the string. -/
def reSplitW (cs : List Char) : List (List Char) :=
  (cs.foldr splitStep (false, [[]])).2

/-- Line 128 of the source applied to one content string: the list of tokens
`re.split(r"\W+", content)`. -/
def tokenize (content : String) : List String :=
  (reSplitW content.data).map (fun cs => ⟨cs⟩)

/-- Python `dict.get k`: the value of the first binding of `k`, if any. -/
def dictGet {α β : Type} [DecidableEq α] (m : List (α × β)) (k : α) : Option β :=
  match m with
  | [] => none
  | (k0, v) :: rest => if k0 = k then some v else dictGet rest k

/-- Python `d[k] = v`: replace the first binding of `k` in place, or append a
new binding at the end. -/
def dictSet {α β : Type} [DecidableEq α] (m : List (α × β)) (k : α) (v : β) : List (α × β) :=
  match m with
  | [] => [(k, v)]
  | (k0, v0) :: rest => if k0 = k then (k, v) :: rest else (k0, v0) :: dictSet rest k v

/-- Removal of the first binding of a key; used to compare an index against
the same index with one key absent. -/
def eraseKey {α β : Type} [DecidableEq α] (m : List (α × β)) (k : α) : List (α × β) :=
  match m with
  | [] => []
  | (k0, v0) :: rest => if k0 = k then rest else (k0, v0) :: eraseKey rest k

/-- The `InvertedIndex` class with its annotated field type
`Dict[str, List[int]]` (line 46). -/
structure InvertedIndex where
  inverted_index : List (String × List Int)

/-- The statement that document id `d` lies in the id collection the mapping
`m` associates to the token `w`. -/
def hasId (m : List (String × List Int)) (w : String) (d : Int) : Prop :=
  ∃ e, dictGet m w = some e ∧ d ∈ e

/-- Python `result.update(entry)` where `result` is a set of ids kept as a
duplicate-free list: add each element of `entry` not already present. -/
def setUpdate (result entry : List Int) : List Int :=
  entry.foldl (fun r d => if d ∈ r then r else r ++ [d]) result

/-- One iteration of the loop of `InvertedIndex.query` (lines 52 to 56):
look the word up; a missing key or a falsy entry (the empty list) is skipped,
any other entry is poured into the result set. -/
def queryStep (m : List (String × List Int)) (result : List Int) (word : String) : List Int :=
  match dictGet m word with
  | none => result
  | some entry => if entry = [] then result else setUpdate result entry

/-- `InvertedIndex.query` (lines 49 to 57): fold the loop over the query
words starting from the empty result set.  The Python function returns
`list(result)`; the order of that list is the unspecified set iteration
order, so the duplicate-free list returned here is meaningful up to
membership. -/
def InvertedIndex.query (index : InvertedIndex) (words : List String) : List Int :=
  words.foldl (queryStep index.inverted_index) []

/-- Python `inverted_index[word].add(doc_id)` on a `defaultdict(set)`
(line 131): extend the first binding of the word, creating a fresh singleton
binding at the end when the word is not yet a key. -/
def addId (m : List (String × List Int)) (w : String) (d : Int) : List (String × List Int) :=
  match m with
  | [] => [(w, [d])]
  | (k, s) :: rest =>
    if k = w then (k, if d ∈ s then s else s ++ [d]) :: rest
    else (k, s) :: addId rest w d

/-- The body of the document loop of `build_inverted_index` (lines 128 to
131): tokenize the content, drop stopwords, and record the document id under
every surviving token. -/
def indexDoc (m : List (String × List Int)) (stopwords : List String)
    (doc_id : Int) (content : String) : List (String × List Int) :=
  ((tokenize content).filter (fun w => decide (w ∉ stopwords))).foldl
    (fun acc w => addId acc w doc_id) m

/-- `build_inverted_index` (lines 119 to 133).  The final comprehension
`{word: list(doc_ids) for ...}` converts each accumulated set to a list; in
this membership-level model of sets that conversion is the identity. -/
def build_inverted_index (documents : List (Int × String)) (stopwords : List String) :
    InvertedIndex :=
  ⟨documents.foldl (fun m p => indexDoc m stopwords p.1 p.2) []⟩

/-- Parsed JSON values, as `json.load` yields them (floats are not needed by
any claim and are omitted from the model). -/
inductive JValue where
  | null : JValue
  | bool : Bool → JValue
  | int : Int → JValue
  | str : String → JValue
  | arr : List JValue → JValue
  | obj : List (String × JValue) → JValue

/-- Decoding of a JSON array as a list of integer ids; `none` when some
element is not an integer. -/
def decodeIds : List JValue → Option (List Int)
  | [] => some []
  | JValue.int n :: rest => (decodeIds rest).map (fun l => n :: l)
  | _ => none

/-- Decoding of the entries of a JSON object as token-to-ids bindings. -/
def decodeEntries : List (String × JValue) → Option (List (String × List Int))
  | [] => some []
  | (k, JValue.arr vs) :: rest =>
    match decodeIds vs with
    | none => none
    | some ids => (decodeEntries rest).map (fun l => (k, ids) :: l)
  | _ => none

/-- Decoding of a JSON value as the token-to-integer-id-list structure of a
persisted index; `none` when the value does not have that shape. -/
def decodeIndex : JValue → Option (List (String × List Int))
  | JValue.obj entries => decodeEntries entries
  | _ => none

/-- Whether a parsed JSON value has the token-to-ids shape of §6. -/
def isIndexShape (j : JValue) : Bool :=
  (decodeIndex j).isSome

/-- `InvertedIndex.dump` (lines 59 to 67): `json.dump(self.inverted_index, f)`
writes the JSON text of exactly this value. -/
def InvertedIndex.dump (index : InvertedIndex) : JValue :=
  JValue.obj (index.inverted_index.map (fun p => (p.1, JValue.arr (p.2.map JValue.int))))

/-- An `InvertedIndex` instance as the constructor of line 46 actually leaves
it after `load`: the field holds whatever Python value the JSON text decoded
to, with no further typing. -/
structure RawIndex where
  inverted_index : JValue

/-- `InvertedIndex.load` (lines 69 to 78): `cls(json.load(f))`.  The argument
is the outcome of `json.load` on the source text, an error for text that is
not valid JSON and the parsed value otherwise; the method wraps the parsed
value without any structural validation, and the only failure it can surface
is the one of the JSON parser itself. -/
def InvertedIndex.load (parsed : Except String JValue) : Except String RawIndex :=
  parsed.map RawIndex.mk

/-- The typed view of a loaded index whose persisted value has the
token-to-ids shape: for such JSON text, `json.load` produces exactly the
decoded dictionary. -/
def loadTyped (j : JValue) : Option InvertedIndex :=
  (decodeIndex j).map InvertedIndex.mk

/-- Whitespace stripped by Python `int()` from its string argument (ASCII
fragment). -/
def isPySpace (c : Char) : Bool :=
  c == ' ' || c == '\t' || c == '\n' || c == '\r' || c == '\x0b' || c == '\x0c'

/-- Python `str.lower` on one character (ASCII fragment of the Unicode
lowering; the id and content bytes of the corpus format are ASCII-relevant
here). -/
def pyLowerChar (c : Char) : Char :=
  if 'A' ≤ c ∧ c ≤ 'Z' then Char.ofNat (c.toNat + 32) else c

/-- Python `str.lower` on a string. -/
def pyLower (s : String) : String :=
  ⟨s.data.map pyLowerChar⟩

/-- Helper of `splitFirstTab`: scan for the first tab, keeping the already
seen characters reversed in `acc`. -/
def splitFirstTabAux (acc : List Char) : List Char → Option (String × String)
  | [] => none
  | c :: rest => if c = '\t' then some (⟨acc.reverse⟩, ⟨rest⟩) else splitFirstTabAux (c :: acc) rest

/-- Python `line.split("\t", 1)` seen as a partial pair: the parts before and
after the first tab, or `none` when the line has no tab (in which case the
unpacking on line 102 raises ValueError). -/
def splitFirstTab (s : String) : Option (String × String) :=
  splitFirstTabAux [] s.data

/-- After the first digit of an integer literal accepted by Python `int()`:
digits, possibly separated by single underscores. -/
def pyIntRest : List Char → Bool
  | [] => true
  | c :: rest =>
    if c.isDigit then pyIntRest rest
    else if c = '_' then
      match rest with
      | [] => false
      | d :: rest2 => d.isDigit && pyIntRest rest2
    else false

/-- The unsigned body of an integer literal accepted by Python `int()`: at
least one digit, with single underscores allowed between digits. -/
def pyIntBody (cs : List Char) : Bool :=
  match cs with
  | [] => false
  | c :: rest => c.isDigit && pyIntRest rest

/-- Numeric value of a digit string, skipping the underscore separators. -/
def digitsVal (cs : List Char) : Nat :=
  cs.foldl (fun acc c => if c.isDigit then acc * 10 + (c.toNat - 48) else acc) 0

/-- Strip the surrounding whitespace Python `int()` ignores. -/
def stripPySpaces (cs : List Char) : List Char :=
  ((cs.dropWhile isPySpace).reverse.dropWhile isPySpace).reverse

/-- Python `int(s)`: optional sign around a digit body after stripping
whitespace; `none` exactly when the call raises ValueError. -/
def pyInt (s : String) : Option Int :=
  match stripPySpaces s.data with
  | '+' :: rest => if pyIntBody rest then some ((digitsVal rest : Int)) else none
  | '-' :: rest => if pyIntBody rest then some (-(digitsVal rest : Int)) else none
  | rest => if pyIntBody rest then some ((digitsVal rest : Int)) else none

/-- Lines 102 to 103 applied to one corpus line: lowercase the whole line,
split at the first tab, parse the id field as an integer; an error models the
ValueError raised when the tab is missing or the id does not parse. -/
def parseLine (line : String) : Except String (Int × String) :=
  match splitFirstTab (pyLower line) with
  | none => Except.error "ValueError: not enough values to unpack"
  | some (idStr, content) =>
    match pyInt idStr with
    | none => Except.error "ValueError: invalid literal for int"
    | some i => Except.ok (i, content)

/-- The line loop of `load_documents` over the remaining lines, carrying the
dictionary built so far; the first bad line aborts the whole load. -/
def loadDocsAux (acc : List (Int × String)) : List String → Except String (List (Int × String))
  | [] => Except.ok acc
  | l :: rest =>
    match parseLine l with
    | Except.error e => Except.error e
    | Except.ok (i, c) => loadDocsAux (dictSet acc i c) rest

/-- `load_documents` (lines 92 to 104) on the list of lines of the input
stream (each line as Python file iteration yields it). -/
def load_documents (lines : List String) : Except String (List (Int × String)) :=
  loadDocsAux [] lines

/-- The well formed corpus pairs of a list of lines, in order. -/
def parsedPairs (lines : List String) : List (Int × String) :=
  lines.filterMap (fun l => (parseLine l).toOption)

/-- The content of the last well formed corpus line carrying the id `i`. -/
def lastContent (lines : List String) (i : Int) : Option String :=
  ((parsedPairs lines).reverse.find? (fun p => decide (p.1 = i))).map Prod.snd

/-! ## Association-list dictionary lemmas -/

theorem dictGet_dictSet {α β : Type} [DecidableEq α] (m : List (α × β)) (k k2 : α) (v : β) :
    dictGet (dictSet m k v) k2 = if k = k2 then some v else dictGet m k2 := by
  induction m with
  | nil => rfl
  | cons p rest ih =>
    obtain ⟨k0, v0⟩ := p
    by_cases h0 : k0 = k <;> by_cases h2 : k = k2 <;>
      simp_all [dictGet, dictSet]

theorem dictGet_eq_none_iff {α β : Type} [DecidableEq α] (m : List (α × β)) (k : α) :
    dictGet m k = none ↔ k ∉ m.map Prod.fst := by
  induction m with
  | nil => simp [dictGet]
  | cons p rest ih =>
    obtain ⟨k0, v0⟩ := p
    by_cases h : k0 = k
    · subst h
      simp [dictGet]
    · have hne : k ≠ k0 := fun hh => h hh.symm
      simp only [dictGet, if_neg h, List.map_cons, List.mem_cons]
      rw [ih]
      tauto

theorem dictGet_eraseKey_ne {α β : Type} [DecidableEq α] (m : List (α × β)) (k k2 : α)
    (h : k2 ≠ k) : dictGet (eraseKey m k) k2 = dictGet m k2 := by
  induction m with
  | nil => rfl
  | cons p rest ih =>
    obtain ⟨k0, v0⟩ := p
    by_cases h0 : k0 = k
    · subst h0
      simp [eraseKey, dictGet, Ne.symm h]
    · simp [eraseKey, h0, dictGet, ih]

theorem dictGet_eraseKey_self {α β : Type} [DecidableEq α] (m : List (α × β)) (k : α)
    (hnd : (m.map Prod.fst).Nodup) : dictGet (eraseKey m k) k = none := by
  induction m with
  | nil => rfl
  | cons p rest ih =>
    obtain ⟨k0, v0⟩ := p
    simp only [List.map_cons, List.nodup_cons] at hnd
    by_cases h0 : k0 = k
    · subst h0
      simp only [eraseKey, if_pos rfl]
      exact (dictGet_eq_none_iff rest k0).mpr hnd.1
    · simp only [eraseKey, if_neg h0, dictGet, if_neg h0]
      exact ih hnd.2

/-! ## Lookup characterization of the builder -/

theorem hasId_nil_iff (w : String) (d : Int) : hasId [] w d ↔ False := by
  simp [hasId, dictGet]

theorem hasId_addId (m : List (String × List Int)) (w w2 : String) (d d2 : Int) :
    hasId (addId m w d) w2 d2 ↔ (w2 = w ∧ d2 = d) ∨ hasId m w2 d2 := by
  induction m with
  | nil =>
    by_cases h : w = w2
    · subst h
      simp [addId, hasId, dictGet]
    · have h2 : ¬ (w2 = w) := fun hh => h hh.symm
      simp [addId, hasId, dictGet, h, h2]
  | cons p rest ih =>
    obtain ⟨k, s⟩ := p
    by_cases hk : k = w
    · by_cases h2 : k = w2
      · have hw : w2 = w := h2.symm.trans hk
        simp only [addId, if_pos hk, hasId, dictGet, if_pos h2, Option.some.injEq,
          exists_eq_left, exists_eq_left']
        by_cases hd : d ∈ s
        · simp only [if_pos hd]
          constructor
          · exact fun hmem => Or.inr hmem
          · rintro (⟨hw2, hdd⟩ | hmem)
            · rw [hdd]; exact hd
            · exact hmem
        · simp only [if_neg hd, List.mem_append, List.mem_singleton]
          constructor
          · rintro (hmem | hdd)
            · exact Or.inr hmem
            · exact Or.inl ⟨hw, hdd⟩
          · rintro (⟨hw2, hdd⟩ | hmem)
            · exact Or.inr hdd
            · exact Or.inl hmem
      · have hw : ¬ (w2 = w) := fun hh => h2 (hk.trans hh.symm)
        simp only [addId, if_pos hk, hasId, dictGet, if_neg h2]
        tauto
    · by_cases h2 : k = w2
      · have hw : ¬ (w2 = w) := fun hh => hk (h2.trans hh)
        simp only [addId, if_neg hk, hasId, dictGet, if_pos h2, Option.some.injEq,
          exists_eq_left, exists_eq_left']
        tauto
      · simp only [addId, if_neg hk, hasId, dictGet, if_neg h2]
        exact ih

theorem hasId_foldl_addId (d : Int) (ws : List String) :
    ∀ (m : List (String × List Int)) (w2 : String) (d2 : Int),
      hasId (ws.foldl (fun acc w => addId acc w d) m) w2 d2 ↔
        (w2 ∈ ws ∧ d2 = d) ∨ hasId m w2 d2 := by
  induction ws with
  | nil => simp
  | cons w ws ih =>
    intro m w2 d2
    simp only [List.foldl_cons]
    rw [ih, hasId_addId]
    simp only [List.mem_cons]
    tauto

theorem hasId_indexDoc (m : List (String × List Int)) (S : List String) (d : Int)
    (c : String) (w2 : String) (d2 : Int) :
    hasId (indexDoc m S d c) w2 d2 ↔
      (w2 ∈ tokenize c ∧ w2 ∉ S ∧ d2 = d) ∨ hasId m w2 d2 := by
  unfold indexDoc
  rw [hasId_foldl_addId]
  simp only [List.mem_filter, decide_eq_true_eq]
  tauto

theorem hasId_build_foldl (S : List String) (w : String) (d : Int) (docs : List (Int × String)) :
    ∀ (m : List (String × List Int)),
      hasId (docs.foldl (fun m p => indexDoc m S p.1 p.2) m) w d ↔
        (∃ c, (d, c) ∈ docs ∧ w ∈ tokenize c ∧ w ∉ S) ∨ hasId m w d := by
  induction docs with
  | nil => simp
  | cons p docs ih =>
    intro m
    obtain ⟨i, c0⟩ := p
    simp only [List.foldl_cons]
    rw [ih, hasId_indexDoc]
    constructor
    · rintro (⟨c, hcdocs, ht, hs⟩ | (⟨ht, hs, hd⟩ | hm))
      · exact Or.inl ⟨c, List.mem_cons_of_mem _ hcdocs, ht, hs⟩
      · subst hd
        exact Or.inl ⟨c0, List.mem_cons_self _ _, ht, hs⟩
      · exact Or.inr hm
    · rintro (⟨c, hc, ht, hs⟩ | hm)
      · rcases List.mem_cons.mp hc with heq | hdocs
        · have hd : d = i := congrArg Prod.fst heq
          have hcc : c = c0 := congrArg Prod.snd heq
          subst hd
          subst hcc
          exact Or.inr (Or.inl ⟨ht, hs, rfl⟩)
        · exact Or.inl ⟨c, hdocs, ht, hs⟩
      · exact Or.inr (Or.inr hm)

theorem hasId_build (documents : List (Int × String)) (stopwords : List String)
    (w : String) (d : Int) :
    hasId (build_inverted_index documents stopwords).inverted_index w d ↔
      ∃ c, (d, c) ∈ documents ∧ w ∈ tokenize c ∧ w ∉ stopwords := by
  unfold build_inverted_index
  rw [hasId_build_foldl]
  simp [hasId, dictGet]

/-! ## Query lemmas -/

theorem mem_setUpdate (d : Int) (entry : List Int) :
    ∀ (r : List Int), d ∈ setUpdate r entry ↔ d ∈ r ∨ d ∈ entry := by
  induction entry with
  | nil => simp [setUpdate]
  | cons x e ih =>
    intro r
    show d ∈ setUpdate (if x ∈ r then r else r ++ [x]) e ↔ _
    rw [ih]
    by_cases hx : x ∈ r
    · simp only [if_pos hx, List.mem_cons]
      constructor
      · rintro (hr | he)
        · exact Or.inl hr
        · exact Or.inr (Or.inr he)
      · rintro (hr | (hdx | he))
        · exact Or.inl hr
        · rw [hdx]; exact Or.inl hx
        · exact Or.inr he
    · simp only [if_neg hx, List.mem_append, List.mem_singleton, List.mem_cons]
      tauto

theorem nodup_setUpdate (entry : List Int) :
    ∀ (r : List Int), r.Nodup → (setUpdate r entry).Nodup := by
  induction entry with
  | nil => exact fun r h => h
  | cons x e ih =>
    intro r h
    show (setUpdate (if x ∈ r then r else r ++ [x]) e).Nodup
    apply ih
    by_cases hx : x ∈ r
    · simpa [hx] using h
    · simp [hx, List.nodup_append, h]

theorem mem_query_foldl (m : List (String × List Int)) (d : Int) (ws : List String) :
    ∀ (r : List Int),
      d ∈ ws.foldl (queryStep m) r ↔ d ∈ r ∨ ∃ w ∈ ws, hasId m w d := by
  induction ws with
  | nil => simp
  | cons w ws ih =>
    intro r
    simp only [List.foldl_cons]
    rw [ih]
    have hstep : d ∈ queryStep m r w ↔ d ∈ r ∨ hasId m w d := by
      unfold queryStep
      cases hg : dictGet m w with
      | none => simp [hasId, hg]
      | some entry =>
        by_cases he : entry = []
        · subst he
          simp [hasId, hg]
        · simp [he, mem_setUpdate, hasId, hg]
    rw [hstep]
    simp only [List.mem_cons, exists_eq_or_imp]
    tauto

theorem nodup_query_foldl (m : List (String × List Int)) (ws : List String) :
    ∀ (r : List Int), r.Nodup → (ws.foldl (queryStep m) r).Nodup := by
  induction ws with
  | nil => exact fun r h => h
  | cons w ws ih =>
    intro r h
    simp only [List.foldl_cons]
    apply ih
    unfold queryStep
    cases dictGet m w with
    | none => exact h
    | some entry =>
      by_cases he : entry = []
      · simp [he, h]
      · simp only [if_neg he]
        exact nodup_setUpdate entry r h

theorem mem_query (index : InvertedIndex) (ws : List String) (d : Int) :
    d ∈ index.query ws ↔ ∃ w ∈ ws, hasId index.inverted_index w d := by
  unfold InvertedIndex.query
  rw [mem_query_foldl]
  simp

theorem nodup_query (index : InvertedIndex) (ws : List String) :
    (index.query ws).Nodup := by
  unfold InvertedIndex.query
  exact nodup_query_foldl index.inverted_index ws [] List.nodup_nil

/-! ## Non-empty entries along the build path -/

theorem addId_entries_ne_nil (m : List (String × List Int)) (w : String) (d : Int)
    (h : ∀ p ∈ m, p.2 ≠ []) : ∀ p ∈ addId m w d, p.2 ≠ [] := by
  induction m with
  | nil =>
    intro p hp
    simp only [addId, List.mem_singleton] at hp
    subst hp
    simp
  | cons q rest ih =>
    obtain ⟨k, s⟩ := q
    intro p hp
    by_cases hk : k = w
    · simp only [addId, if_pos hk, List.mem_cons] at hp
      rcases hp with hp | hp
      · subst hp
        have hs : s ≠ [] := h (k, s) (List.mem_cons_self _ _)
        by_cases hd : d ∈ s
        · simpa [hd] using hs
        · simp [hd]
      · exact h p (List.mem_cons_of_mem _ hp)
    · simp only [addId, if_neg hk, List.mem_cons] at hp
      rcases hp with hp | hp
      · subst hp
        exact h (k, s) (List.mem_cons_self _ _)
      · exact ih (fun q hq => h q (List.mem_cons_of_mem _ hq)) p hp

theorem foldl_addId_entries_ne_nil (d : Int) (ws : List String) :
    ∀ (m : List (String × List Int)), (∀ p ∈ m, p.2 ≠ []) →
      ∀ p ∈ ws.foldl (fun acc w => addId acc w d) m, p.2 ≠ [] := by
  induction ws with
  | nil => exact fun m h => h
  | cons w ws ih =>
    intro m h
    simp only [List.foldl_cons]
    exact ih (addId m w d) (addId_entries_ne_nil m w d h)

theorem indexDoc_entries_ne_nil (m : List (String × List Int)) (S : List String)
    (d : Int) (c : String) (h : ∀ p ∈ m, p.2 ≠ []) :
    ∀ p ∈ indexDoc m S d c, p.2 ≠ [] := by
  unfold indexDoc
  exact foldl_addId_entries_ne_nil d _ m h

theorem build_foldl_entries_ne_nil (S : List String) (docs : List (Int × String)) :
    ∀ (m : List (String × List Int)), (∀ p ∈ m, p.2 ≠ []) →
      ∀ p ∈ docs.foldl (fun m q => indexDoc m S q.1 q.2) m, p.2 ≠ [] := by
  induction docs with
  | nil => exact fun m h => h
  | cons q docs ih =>
    intro m h
    simp only [List.foldl_cons]
    exact ih _ (indexDoc_entries_ne_nil m S q.1 q.2 h)

/-! ## Serialization round trip at the level of parsed JSON values -/

theorem decodeIds_map_int (l : List Int) : decodeIds (l.map JValue.int) = some l := by
  induction l with
  | nil => rfl
  | cons n l ih => simp [decodeIds, ih]

theorem decodeEntries_map (m : List (String × List Int)) :
    decodeEntries (m.map (fun p => (p.1, JValue.arr (p.2.map JValue.int)))) = some m := by
  induction m with
  | nil => rfl
  | cons p m ih =>
    obtain ⟨k, ids⟩ := p
    simp [decodeEntries, decodeIds_map_int, ih]

theorem decodeIndex_dump (index : InvertedIndex) :
    decodeIndex index.dump = some index.inverted_index := by
  unfold InvertedIndex.dump decodeIndex
  exact decodeEntries_map index.inverted_index

theorem loadTyped_dump (index : InvertedIndex) : loadTyped index.dump = some index := by
  unfold loadTyped
  rw [decodeIndex_dump]
  rfl

/-! ## Corpus loading lemmas -/

theorem parseLine_error_of_malformed (l : String)
    (h : splitFirstTab (pyLower l) = none ∨
      ∃ q, splitFirstTab (pyLower l) = some q ∧ pyInt q.1 = none) :
    ∃ e, parseLine l = Except.error e := by
  unfold parseLine
  rcases h with h | ⟨q, hq, hi⟩
  · rw [h]
    exact ⟨_, rfl⟩
  · obtain ⟨a, b⟩ := q
    rw [hq]
    simp only at hi
    dsimp only
    rw [hi]
    exact ⟨_, rfl⟩

theorem loadDocsAux_error (lines : List String) :
    ∀ (acc : List (Int × String)),
      (∃ l ∈ lines, ∃ e, parseLine l = Except.error e) →
      ∃ e, loadDocsAux acc lines = Except.error e := by
  induction lines with
  | nil =>
    rintro acc ⟨l, hl, _⟩
    simp at hl
  | cons l0 rest ih =>
    intro acc h
    cases hp : parseLine l0 with
    | error e => exact ⟨e, by simp [loadDocsAux, hp]⟩
    | ok p =>
      obtain ⟨i, c⟩ := p
      obtain ⟨l, hl, e, hbad⟩ := h
      rcases List.mem_cons.mp hl with rfl | hl2
      · rw [hp] at hbad
        cases hbad
      · simp only [loadDocsAux, hp]
        exact ih (dictSet acc i c) ⟨l, hl2, e, hbad⟩

theorem lastContent_cons_ok (l0 : String) (rest : List String) (j : Int) (c : String)
    (i : Int) (hp : parseLine l0 = Except.ok (j, c)) :
    lastContent (l0 :: rest) i = (lastContent rest i).or (if j = i then some c else none) := by
  have hhead : parsedPairs (l0 :: rest) = (j, c) :: parsedPairs rest := by
    simp [parsedPairs, List.filterMap_cons, hp, Except.toOption]
  unfold lastContent
  rw [hhead, List.reverse_cons, List.find?_append]
  cases hfind : ((parsedPairs rest).reverse.find? (fun p => decide (p.1 = i))) with
  | some q => simp [hfind]
  | none =>
    by_cases hj : j = i <;> simp [hfind, List.find?, hj]

theorem loadDocsAux_ok (lines : List String) :
    ∀ (acc : List (Int × String)),
      (∀ l ∈ lines, ∃ p, parseLine l = Except.ok p) →
      ∃ m, loadDocsAux acc lines = Except.ok m ∧
        ∀ i, dictGet m i = (lastContent lines i).or (dictGet acc i) := by
  induction lines with
  | nil =>
    intro acc h
    exact ⟨acc, rfl, fun i => by simp [lastContent, parsedPairs]⟩
  | cons l0 rest ih =>
    intro acc h
    obtain ⟨⟨j, c⟩, hp⟩ := h l0 (List.mem_cons_self _ _)
    obtain ⟨m, hm, hget⟩ := ih (dictSet acc j c) (fun l hl => h l (List.mem_cons_of_mem _ hl))
    refine ⟨m, by simp [loadDocsAux, hp, hm], fun i => ?_⟩
    rw [hget i, dictGet_dictSet, lastContent_cons_ok l0 rest j c i hp, Option.or_assoc]
    by_cases hj : j = i <;> simp [hj]

/-! ## Empty pieces produced by the tokenizer -/

theorem splitStep_pieces_ne_nil (c : Char) (st : Bool × List (List Char))
    (h : st.2 ≠ []) : (splitStep c st).2 ≠ [] := by
  obtain ⟨b, pieces⟩ := st
  cases pieces with
  | nil => simp at h
  | cons t ts =>
    simp only [splitStep]
    by_cases hw : isWordChar c <;> cases b <;> simp [hw]

theorem foldr_splitStep_pieces_ne_nil (cs : List Char) :
    (cs.foldr splitStep (false, [[]])).2 ≠ [] := by
  induction cs with
  | nil => simp
  | cons c cs ih =>
    rw [List.foldr_cons]
    exact splitStep_pieces_ne_nil c _ ih

theorem splitStep_flag_front (c : Char) (st : Bool × List (List Char))
    (h : st.1 = true → ∃ ts, st.2 = [] :: ts) :
    (splitStep c st).1 = true → ∃ ts, (splitStep c st).2 = [] :: ts := by
  obtain ⟨b, pieces⟩ := st
  cases pieces with
  | nil =>
    simp only [splitStep]
    intro hb
    obtain ⟨ts, hts⟩ := h hb
    simp at hts
  | cons t ts =>
    simp only [splitStep]
    by_cases hw : isWordChar c
    · simp [hw]
    · cases b with
      | true =>
        obtain ⟨ts2, hts⟩ := h rfl
        have ht : t = [] := (List.cons.injEq t ts [] ts2).mp hts |>.1
        subst ht
        simp [hw]
      | false =>
        simp [hw]

theorem foldr_splitStep_flag_front (cs : List Char) :
    (cs.foldr splitStep (false, [[]])).1 = true →
      ∃ ts, (cs.foldr splitStep (false, [[]])).2 = [] :: ts := by
  induction cs with
  | nil => simp
  | cons c cs ih =>
    rw [List.foldr_cons]
    exact splitStep_flag_front c _ ih

theorem empty_piece_of_head_sep (c : Char) (cs : List Char) (hw : isWordChar c = false) :
    [] ∈ reSplitW (c :: cs) := by
  unfold reSplitW
  rw [List.foldr_cons]
  cases hst : cs.foldr splitStep (false, [[]]) with
  | mk b pieces =>
    have hne : pieces ≠ [] := by
      have h0 := foldr_splitStep_pieces_ne_nil cs
      rw [hst] at h0
      exact h0
    cases pieces with
    | nil => exact absurd rfl hne
    | cons t ts =>
      cases b with
      | false => simp [splitStep, hw]
      | true =>
        have hfront := foldr_splitStep_flag_front cs
        rw [hst] at hfront
        obtain ⟨ts2, hts⟩ := hfront rfl
        have ht : t = [] := (List.cons.injEq t ts [] ts2).mp hts |>.1
        subst ht
        simp [splitStep, hw]

theorem splitStep_preserves_last (c : Char) (st : Bool × List (List Char))
    (hlen : 2 ≤ st.2.length) (hlast : st.2.getLast? = some []) :
    2 ≤ (splitStep c st).2.length ∧ (splitStep c st).2.getLast? = some [] := by
  obtain ⟨b, pieces⟩ := st
  cases pieces with
  | nil => simp at hlen
  | cons t ts =>
    cases ts with
    | nil => simp at hlen
    | cons t1 ts2 =>
      simp only [splitStep]
      by_cases hw : isWordChar c
      · rw [if_pos hw]
        refine ⟨by simp, ?_⟩
        rw [List.getLast?_cons_cons] at hlast ⊢
        exact hlast
      · rw [if_neg hw]
        cases b with
        | true =>
          rw [if_pos rfl]
          exact ⟨hlen, hlast⟩
        | false =>
          rw [if_neg Bool.false_ne_true]
          refine ⟨?_, ?_⟩
          · simp only [List.length_cons]
            omega
          · rw [List.getLast?_cons_cons]
            exact hlast

theorem foldr_splitStep_last (cs : List Char) (c : Char) (hw : isWordChar c = false)
    (hlast : cs.getLast? = some c) :
    2 ≤ (cs.foldr splitStep (false, [[]])).2.length ∧
      (cs.foldr splitStep (false, [[]])).2.getLast? = some [] := by
  induction cs with
  | nil => simp at hlast
  | cons c0 cs ih =>
    cases cs with
    | nil =>
      rw [List.getLast?_singleton] at hlast
      have hc : c0 = c := Option.some.inj hlast
      subst hc
      simp [splitStep, hw]
    | cons c1 cs2 =>
      rw [List.getLast?_cons_cons] at hlast
      obtain ⟨hlen, hl⟩ := ih hlast
      rw [List.foldr_cons]
      exact splitStep_preserves_last c0 _ hlen hl

theorem empty_piece_of_last_sep (cs : List Char) (c : Char) (hw : isWordChar c = false)
    (hlast : cs.getLast? = some c) : [] ∈ reSplitW cs := by
  obtain ⟨hlen, hl⟩ := foldr_splitStep_last cs c hw hlast
  unfold reSplitW
  exact List.mem_of_getLast?_eq_some hl

theorem empty_string_mem_tokenize (s : String) (h : [] ∈ reSplitW s.data) :
    "" ∈ tokenize s := by
  unfold tokenize
  exact List.mem_map.mpr ⟨[], h, rfl⟩

/-! ## Claim theorems -/

/-- Claim C1: build correctness invariant: for every documents mapping (ids
unique), stopword set, token t and document id d, the built index keeps d in
the collection for key t exactly when t occurs at least once among the tokens
of the content of document d (content split on runs of non-word characters)
and t is not a stopword. -/
theorem build_correctness_invariant (documents : List (Int × String))
    (stopwords : List String) (t : String) (d : Int)
    (hids : (documents.map Prod.fst).Nodup) :
    hasId (build_inverted_index documents stopwords).inverted_index t d ↔
      ∃ c, (d, c) ∈ documents ∧ t ∈ tokenize c ∧ t ∉ stopwords :=
  hasId_build documents stopwords t d

/-- Witness for C1 at a concrete corpus. -/
theorem build_correctness_invariant_witness :
    hasId (build_inverted_index [((0 : Int), "cat sat")] []).inverted_index "cat" 0 :=
  (build_correctness_invariant [((0 : Int), "cat sat")] [] "cat" 0 (by decide)).mpr
    ⟨"cat sat", by decide, by decide, by decide⟩

/-- Claim C2, counterexample: building from a single document whose content
starts with a separator stores the empty string as a key of the index, so the
claim that the tokenization step discards empty tokens and that the empty
string is never a key is false on the code. -/
theorem empty_token_is_indexed_cex :
    dictGet (build_inverted_index [((0 : Int), " cat")] []).inverted_index "" = some [0] := by
  decide

/-- Claim C2, amended: the tokenization step keeps the empty tokens arising
from an empty content or from a leading or trailing separator, and the empty
string becomes a key of the built index whenever such a token survives the
stopword filter. -/
theorem empty_tokens_not_discarded :
    tokenize "" = [""] ∧
    (∀ (c : Char) (cs : List Char), isWordChar c = false → "" ∈ tokenize ⟨c :: cs⟩) ∧
    (∀ (s : String) (c : Char), s.data.getLast? = some c → isWordChar c = false →
      "" ∈ tokenize s) ∧
    (∀ (documents : List (Int × String)) (stopwords : List String) (d : Int) (c : String),
      (d, c) ∈ documents → "" ∈ tokenize c → "" ∉ stopwords →
      hasId (build_inverted_index documents stopwords).inverted_index "" d) := by
  refine ⟨rfl, ?_, ?_, ?_⟩
  · intro c cs hw
    exact empty_string_mem_tokenize ⟨c :: cs⟩ (empty_piece_of_head_sep c cs hw)
  · intro s c hl hw
    exact empty_string_mem_tokenize s (empty_piece_of_last_sep s.data c hw hl)
  · intro documents stopwords d c hmem ht hs
    exact (hasId_build documents stopwords "" d).mpr ⟨c, hmem, ht, hs⟩

/-- Witness for the amended C2 at a concrete document. -/
theorem empty_tokens_not_discarded_witness :
    "" ∈ tokenize " cat" ∧
    hasId (build_inverted_index [((0 : Int), " cat")] []).inverted_index "" 0 :=
  ⟨empty_tokens_not_discarded.2.1 ' ' ['c', 'a', 't'] (by decide),
   empty_tokens_not_discarded.2.2.2 [((0 : Int), " cat")] [] 0 " cat"
     (by decide) (by decide) (by decide)⟩

/-- Claim C3, counterexample: the parsed JSON value of the text "[1]" has a
non-object top level, yet load returns an index wrapping it instead of
failing with an error. -/
theorem load_accepts_malformed_value_cex :
    isIndexShape (JValue.arr [JValue.int 1]) = false ∧
    InvertedIndex.load (Except.ok (JValue.arr [JValue.int 1])) =
      Except.ok ⟨JValue.arr [JValue.int 1]⟩ :=
  ⟨rfl, rfl⟩

/-- Claim C3, amended: load performs no structural validation: every
successfully parsed JSON value, also one that does not decode into the
token-to-integer-id-list structure, is wrapped and returned as an index, and
the only failure load surfaces is the failure of the JSON parser itself. -/
theorem load_performs_no_validation (j : JValue) (h : isIndexShape j = false) :
    InvertedIndex.load (Except.ok j) = Except.ok ⟨j⟩ ∧
    ∀ e, InvertedIndex.load (Except.error e) = Except.error e :=
  ⟨rfl, fun _ => rfl⟩

/-- Witness for the amended C3 at a concrete non-index JSON value. -/
theorem load_performs_no_validation_witness :
    InvertedIndex.load (Except.ok (JValue.arr [])) = Except.ok ⟨JValue.arr []⟩ :=
  (load_performs_no_validation (JValue.arr []) rfl).1

/-- Claim C4: query returns a duplicate-free collection whose membership is
the union of the id collections stored for the query terms that are keys of
the index; a term that is not a key contributes nothing and raises no error,
and a query with zero terms returns the empty collection. -/
theorem query_union_semantics (index : InvertedIndex) (words : List String) :
    (index.query words).Nodup ∧
    (∀ d, d ∈ index.query words ↔
      ∃ w ∈ words, ∃ e, dictGet index.inverted_index w = some e ∧ d ∈ e) ∧
    index.query [] = [] :=
  ⟨nodup_query index words, fun d => mem_query index words d, rfl⟩

/-- Claim C5: round-trip law: reading back the JSON value dump wrote for a
built index yields an index that answers every query with the same id set as
the original. -/
theorem dump_load_roundtrip_queries (documents : List (Int × String))
    (stopwords : List String) :
    ∃ index2, loadTyped (build_inverted_index documents stopwords).dump = some index2 ∧
      ∀ (queryWords : List String) (d : Int),
        d ∈ index2.query queryWords ↔
          d ∈ (build_inverted_index documents stopwords).query queryWords :=
  ⟨build_inverted_index documents stopwords, loadTyped_dump _, fun _ _ => Iff.rfl⟩

/-- Claim C6: a corpus line with no tab separator between id and content, or
whose id field does not parse as an integer, makes load_documents fail with
an error instead of skipping the line. -/
theorem load_documents_malformed_line_fails (lines : List String)
    (h : ∃ l ∈ lines, splitFirstTab (pyLower l) = none ∨
      ∃ q, splitFirstTab (pyLower l) = some q ∧ pyInt q.1 = none) :
    ∃ e, load_documents lines = Except.error e := by
  unfold load_documents
  apply loadDocsAux_error
  obtain ⟨l, hl, hbad⟩ := h
  exact ⟨l, hl, parseLine_error_of_malformed l hbad⟩

/-- Witness for C6 on a corpus with one line lacking the tab separator. -/
theorem load_documents_malformed_line_fails_witness :
    ∃ e, load_documents ["1\ta\n", "botched line\n", "2\tb\n"] = Except.error e :=
  load_documents_malformed_line_fails _
    ⟨"botched line\n", by decide, Or.inl (by decide)⟩

/-- Claim C7: algebraic query laws: the query of zero terms is empty, query
of a concatenation is the union of the queries, and a duplicated term queries
the same set as the term alone. -/
theorem query_algebraic_laws (index : InvertedIndex) (A B : List String)
    (t : String) (d : Int) :
    index.query [] = [] ∧
    (d ∈ index.query (A ++ B) ↔ d ∈ index.query A ∨ d ∈ index.query B) ∧
    (d ∈ index.query [t, t] ↔ d ∈ index.query [t]) := by
  refine ⟨rfl, ?_, ?_⟩
  · rw [mem_query, mem_query, mem_query]
    simp only [List.mem_append, or_and_right, exists_or]
  · rw [mem_query, mem_query]
    simp

/-- Claim C8, counterexample: loading the JSON object binding token "a" to
the empty array succeeds and stores a key with an empty id collection, so the
claim fails for indexes produced by load. -/
theorem load_stores_empty_entry_cex :
    InvertedIndex.load (Except.ok (JValue.obj [("a", JValue.arr [])])) =
      Except.ok ⟨JValue.obj [("a", JValue.arr [])]⟩ ∧
    loadTyped (JValue.obj [("a", JValue.arr [])]) = some ⟨[("a", [])]⟩ ∧
    dictGet [("a", ([] : List Int))] "a" = some [] :=
  ⟨rfl, rfl, by decide⟩

/-- Claim C8, amended: every key of an index produced by build_inverted_index
has at least one associated document id; an index obtained through load can
store an entry with an empty id collection, since load does not validate. -/
theorem build_entries_nonempty (documents : List (Int × String))
    (stopwords : List String) :
    ∀ p ∈ (build_inverted_index documents stopwords).inverted_index, p.2 ≠ [] := by
  unfold build_inverted_index
  exact build_foldl_entries_ne_nil stopwords documents [] (by simp)

/-- Witness for the amended C8 at a concrete build. -/
theorem build_entries_nonempty_witness :
    ("cat", [(0 : Int)]) ∈ (build_inverted_index [((0 : Int), "cat")] []).inverted_index ∧
    [(0 : Int)] ≠ [] :=
  ⟨by decide, build_entries_nonempty [((0 : Int), "cat")] [] ("cat", [0]) (by decide)⟩

/-- Claim C9: duplicate corpus ids raise no error: when every line is well
formed, load_documents succeeds and binds each id to the content of the last
line carrying it. -/
theorem load_documents_duplicate_ids_last_wins (lines : List String)
    (h : ∀ l ∈ lines, ∃ p, parseLine l = Except.ok p) :
    ∃ m, load_documents lines = Except.ok m ∧
      ∀ i, dictGet m i = lastContent lines i := by
  unfold load_documents
  obtain ⟨m, hm, hget⟩ := loadDocsAux_ok lines [] h
  refine ⟨m, hm, fun i => ?_⟩
  rw [hget i]
  simp [dictGet]

/-- Witness for C9 on a corpus repeating id 1, whose last line wins. -/
theorem load_documents_duplicate_ids_last_wins_witness :
    (∃ m, load_documents ["1\ta\n", "2\tb\n", "1\tc\n"] = Except.ok m ∧
      ∀ i, dictGet m i = lastContent ["1\ta\n", "2\tb\n", "1\tc\n"] i) ∧
    lastContent ["1\ta\n", "2\tb\n", "1\tc\n"] 1 = some "c\n" := by
  refine ⟨load_documents_duplicate_ids_last_wins _ ?_, by decide⟩
  intro l hl
  simp only [List.mem_cons, List.not_mem_nil, or_false] at hl
  rcases hl with rfl | rfl | rfl
  · exact ⟨((1 : Int), "a\n"), rfl⟩
  · exact ⟨((2 : Int), "b\n"), rfl⟩
  · exact ⟨((1 : Int), "c\n"), rfl⟩

/-- Claim C10: an entry stored with an empty id list is treated by query
exactly like an absent key: the query results on the index and on the index
with that key removed are identical. -/
theorem query_treats_empty_entry_as_absent (m : List (String × List Int)) (t : String)
    (hkeys : (m.map Prod.fst).Nodup) (h : dictGet m t = some [])
    (words : List String) :
    InvertedIndex.query ⟨m⟩ words = InvertedIndex.query ⟨eraseKey m t⟩ words := by
  unfold InvertedIndex.query
  suffices hsuf : ∀ (ws : List String) (r : List Int),
      ws.foldl (queryStep m) r = ws.foldl (queryStep (eraseKey m t)) r by
    exact hsuf words []
  intro ws
  induction ws with
  | nil => intro r; rfl
  | cons w ws ih =>
    intro r
    have hstep : queryStep m r w = queryStep (eraseKey m t) r w := by
      unfold queryStep
      by_cases hw : w = t
      · subst hw
        rw [h, dictGet_eraseKey_self m w hkeys]
        simp
      · rw [dictGet_eraseKey_ne m t w hw]
    simp only [List.foldl_cons, hstep, ih]

/-- Witness for C10 on a mapping with an empty entry for key "a". -/
theorem query_treats_empty_entry_as_absent_witness :
    InvertedIndex.query ⟨[("a", []), ("b", [7])]⟩ ["a", "b"] =
      InvertedIndex.query ⟨eraseKey [("a", []), ("b", [7])] "a"⟩ ["a", "b"] ∧
    InvertedIndex.query ⟨[("a", []), ("b", [7])]⟩ ["a", "b"] = [7] :=
  ⟨query_treats_empty_entry_as_absent [("a", []), ("b", [7])] "a"
      (by decide) (by decide) ["a", "b"],
   by decide⟩
